import Mathlib

/-!
# Verification of the `lzma_mt` wrapper's streaming state machines

The repository ships a Python façade (`src/lzma_mt/__init__.py`) over a
Cython extension module `lzma_mt.lzma_mt` that implements the one-shot
`compress`/`decompress` functions, the streaming `LZMACompressor` /
`LZMADecompressor` state machines, and the CVE version gate.  The Cython
source (`src/lzma_mt/lzma_mt.pyx`, referenced by `setup.py`) is not part of
the source tree given here, so the state machines below are modelled from
the specification (§4.2–§4.7, §7) and checked against the behaviour pinned
by the repository's test-suite fixtures.

The native LZMA codec is explicitly out of scope for the spec (a black box
with a `step(input, output, action) -> (status, consumed, written)`
contract), so it is instantiated with a minimal executable codec over an
XZ-like self-delimited container: the 6 magic bytes pinned by §6, a
dictionary-size field (driving the `memlimit` checks of §5) and a payload
length, followed by the raw payload.  All wrapper-level behaviour — input
buffering, output caps, `eof`/`needs_input`/`unused_data` bookkeeping, the
poisoned state, the concatenated-stream scan of the one-shot function —
follows the spec's algorithm line by line.
-/

namespace LzmaMt

/-- Byte strings are lists of naturals (each conceptually `< 256`). -/
abbrev Bytes := List Nat

/-- The XZ stream magic `FD 37 7A 58 5A 00` (spec §6, "Wire format"). -/
def xzMagic : Bytes := [253, 55, 122, 88, 90, 0]

/-- Dictionary size used by the default preset 6 (8 MiB), recorded in the
model stream header and checked against `memlimit` on decode. -/
def defaultDictSize : Nat := 8388608

/-- Big-endian 4-byte encoding of a natural number (mod 2^32). -/
def encBE32 (n : Nat) : Bytes :=
  [n / 16777216 % 256, n / 65536 % 256, n / 256 % 256, n % 256]

/-- Decode a big-endian 4-byte value. -/
def decBE32 (a b c d : Nat) : Nat :=
  ((a * 256 + b) * 256 + c) * 256 + d

/-- Modelled from the spec: the model stream header — magic bytes, then the
dictionary size, then the payload length (the container is self-delimited,
§6).  Stands in for the XZ stream/block headers produced by the missing
codec binding in `lzma_mt.pyx`. -/
def streamHeader (dict : Nat) (len : Nat) : Bytes :=
  xzMagic ++ encBE32 dict ++ encBE32 len

/-- Modelled from the spec: a whole single-stream container for `payload`.
Stands in for the encoder side of the missing `lzma_mt.pyx` codec binding. -/
def encodeStream (dict : Nat) (payload : Bytes) : Bytes :=
  streamHeader dict payload.length ++ payload

/-- Modelled from the spec: one-shot `compress` with default parameters
(preset 6, XZ format, §6 "Defaults"), missing from `src/` with the rest of
`lzma_mt.pyx`. -/
def compress (data : Bytes) : Bytes :=
  encodeStream defaultDictSize data

/-- Codec step status (spec §4.1). -/
inductive Status where
  | ok
  | streamEnd
  | bufError
  | memError
  | dataError
  | formatError
  deriving DecidableEq, Repr

/-- Decoder-side codec state: accumulating the fixed-size stream header,
passing through the payload, or finished. -/
inductive DecState where
  | header (acc : Bytes)
  | body (remaining : Nat)
  | finished
  deriving DecidableEq, Repr

/-- Does `l` look like the start of an XZ stream, i.e. do its first bytes
agree with the magic?  (True for the empty list.) -/
def startsLikeXz (l : Bytes) : Bool :=
  decide (l.take 6 = xzMagic.take l.length)

/-- Modelled from the spec: one decoder `step` of the black-box codec
(§4.1): given the unconsumed input slice and the available output space
(`none` = unbounded), return `(status, in_consumed, out_written, state')`.
The header is accumulated (checking the magic incrementally, then the
dictionary size against `memlimit`), after which payload bytes pass
through up to the output space. -/
def decStep (memlimit : Option Nat) (st : DecState) (input : Bytes)
    (outSpace : Option Nat) : Status × Nat × Bytes × DecState :=
  match st with
  | .finished => (.streamEnd, 0, [], .finished)
  | .header acc =>
      let t := input.take (14 - acc.length)
      let acc2 := acc ++ t
      if startsLikeXz acc2 = false then
        (.dataError, t.length, [], .header acc2)
      else if acc2.length < 14 then
        (.ok, t.length, [], .header acc2)
      else
        let dict := decBE32 (acc2.getD 6 0) (acc2.getD 7 0)
                            (acc2.getD 8 0) (acc2.getD 9 0)
        let len := decBE32 (acc2.getD 10 0) (acc2.getD 11 0)
                           (acc2.getD 12 0) (acc2.getD 13 0)
        match memlimit with
        | some m =>
            if m < dict then (.memError, t.length, [], .header acc2)
            else (.ok, t.length, [], .body len)
        | none => (.ok, t.length, [], .body len)
  | .body n =>
      if n = 0 then
        (.streamEnd, 0, [], .finished)
      else
        let k := match outSpace with
          | none => min n input.length
          | some s => min n (min input.length s)
        if k = 0 then (.ok, 0, [], .body n)
        else if k = n then (.streamEnd, n, input.take n, .finished)
        else (.ok, k, input.take k, .body (n - k))

/-- Error taxonomy of §6: value error (bad argument / terminal state),
memory-limit error, codec error carrying the native status. -/
inductive DecErr where
  | valueError
  | memError
  | lzmaError (s : Status)
  deriving DecidableEq, Repr

/-- Decidable equality of call results, so that concrete runs of the state
machine can be checked by evaluation. -/
instance (ε α : Type) [DecidableEq ε] [DecidableEq α] :
    DecidableEq (Except ε α) := fun a b =>
  match a, b with
  | .ok x, .ok y =>
      if h : x = y then .isTrue (by rw [h]) else .isFalse (by simp [h])
  | .error x, .error y =>
      if h : x = y then .isTrue (by rw [h]) else .isFalse (by simp [h])
  | .ok _, .error _ => .isFalse (by simp)
  | .error _, .ok _ => .isFalse (by simp)

/-- Memory-limit and native-status failures are codec errors; value errors
are not (§6 "Error names": memory-limit error is a specialization of codec
error). -/
def DecErr.isCodecError : DecErr → Bool
  | .valueError => false
  | .memError => true
  | .lzmaError _ => true

/-- Modelled from the spec: the decompress pumping loop of §4.5 step 4,
missing from `src/` with `lzma_mt.pyx`.  Fuel-based recursion; each call
returns `(codecState, remainingBuffer, output, eofReached)` or an error.
Breaks on StreamEnd, on filling the output cap, and on a step that makes
no progress. -/
def decLoop (memlimit : Option Nat) (cap : Option Nat) :
    Nat → DecState → Bytes → Bytes → Except DecErr (DecState × Bytes × Bytes × Bool)
  | 0, st, buf, acc => .ok (st, buf, acc, false)
  | fuel + 1, st, buf, acc =>
      let outSpace := cap.map (fun c => c - acc.length)
      match decStep memlimit st buf outSpace with
      | (.streamEnd, consumed, out, st2) =>
          .ok (st2, buf.drop consumed, acc ++ out, true)
      | (.ok, consumed, out, st2) =>
          let buf2 := buf.drop consumed
          let acc2 := acc ++ out
          if (match cap with
              | some c => decide (acc2.length = c) && !out.isEmpty
              | none => false) then
            .ok (st2, buf2, acc2, false)
          else if consumed = 0 && out.isEmpty then
            .ok (st2, buf2, acc2, false)
          else
            decLoop memlimit cap fuel st2 buf2 acc2
      | (.memError, _, _, _) => .error .memError
      | (s, _, _, _) => .error (.lzmaError s)

/-- Decoder selection (§4.5 "Safety gate interaction"): single-threaded or
multi-threaded with a worker count. -/
inductive DecoderMode where
  | st
  | mt (threads : Nat)
  deriving DecidableEq, Repr

/-- Native library version, `MAJOR.MINOR.PATCH` (§4.6). -/
structure XzVersion where
  major : Nat
  minor : Nat
  patch : Nat
  deriving DecidableEq, Repr

/-- Lexicographic order on versions. -/
def XzVersion.le (a b : XzVersion) : Bool :=
  decide (a.major < b.major) ||
    (decide (a.major = b.major) &&
      (decide (a.minor < b.minor) ||
        (decide (a.minor = b.minor) && decide (a.patch ≤ b.patch))))

/-- Lower end of the closed vulnerable range (5.3.3, per the module
docstring: "5.3.3alpha-5.8.0 has CVE-2025-31115"). -/
def vulnerableLow : XzVersion := ⟨5, 3, 3⟩

/-- Upper end of the closed vulnerable range (5.8.0). -/
def vulnerableHigh : XzVersion := ⟨5, 8, 0⟩

/-- Modelled from the spec: `is_mt_decoder_safe()` (§4.6) — true iff the
native version lies outside the closed vulnerable range.  The real check in
`lzma_mt.pyx` is absent from `src/`. -/
def isMtDecoderSafe (v : XzVersion) : Bool :=
  !(vulnerableLow.le v && v.le vulnerableHigh)

/-- Streaming decompressor state (§3 "Decompressor", §4.5). -/
structure Decompressor where
  codec : DecState
  mode : DecoderMode
  memlimit : Option Nat
  inputBuf : Bytes
  eof : Bool
  needsInput : Bool
  unusedData : Bytes
  poisoned : Bool
  deriving DecidableEq, Repr

/-- Modelled from the spec: `LZMADecompressor(threads, memlimit)`
construction (§4.5, §4.7, §4.6): negative thread counts are a value error
before any native call; `threads ≠ 1` requests the MT decoder, which
silently falls back to single-threaded decoding when
`is_mt_decoder_safe()` is false.  The real constructor in `lzma_mt.pyx` is
absent from `src/`. -/
def mkDecompressor (threads : Int) (memlimit : Option Nat) (v : XzVersion) :
    Except DecErr Decompressor :=
  if threads < 0 then .error .valueError
  else
    .ok { codec := .header []
          mode := if threads ≠ 1 && isMtDecoderSafe v then .mt threads.toNat
                  else .st
          memlimit := memlimit
          inputBuf := []
          eof := false
          needsInput := true
          unusedData := []
          poisoned := false }

/-- A fresh single-threaded decompressor with the given memory limit (the
`threads=1` construction, which never errors). -/
def freshDec (memlimit : Option Nat) : Decompressor :=
  { codec := .header []
    mode := .st
    memlimit := memlimit
    inputBuf := []
    eof := false
    needsInput := true
    unusedData := []
    poisoned := false }

/-- Modelled from the spec: `LZMADecompressor.decompress(data, max_length)`
(§4.5 steps 1–4 and the post-loop `needs_input` update, §7 "poisoned"),
absent from `src/` with `lzma_mt.pyx`.  Returns the result together with
the successor state (errors leave an observable state so that poisoning is
expressible). -/
def Decompressor.decompress (d : Decompressor) (data : Bytes)
    (maxLength : Int := -1) : Except DecErr Bytes × Decompressor :=
  if d.eof then (.error .valueError, d)
  else if d.poisoned then (.error .valueError, d)
  else
    let buf := d.inputBuf ++ data
    if maxLength = 0 then
      (.ok [], { d with inputBuf := buf, needsInput := buf.isEmpty })
    else
      let cap : Option Nat := if maxLength < 0 then none else some maxLength.toNat
      match decLoop d.memlimit cap (buf.length + 3) d.codec buf [] with
      | .ok (st2, buf2, out, isEof) =>
          (.ok out,
           { d with
               codec := st2
               inputBuf := if isEof then [] else buf2
               eof := isEof
               unusedData := if isEof then buf2 else d.unusedData
               needsInput := !isEof && buf2.isEmpty })
      | .error .memError => (.error .memError, d)
      | .error e => (.error e, { d with poisoned := true })

/-- What the decoder has parsed so far: `consumed` is the byte sequence the
codec has absorbed since construction.  In the header phase the absorbed
bytes are exactly the accumulator (still short of the 14-byte header); in
the body phase they form one complete stream header followed by the part
of the payload already delivered; `finished` is reached only together with
Eof, never inside a Running decompressor. -/
def CodecParses (consumed : Bytes) : DecState → Prop
  | .header acc => consumed = acc ∧ acc.length < 14
  | .body n => ∃ dict len payload,
      consumed = streamHeader dict len ++ payload ∧ payload.length + n = len
  | .finished => False

/-- Call traces of a streaming decompressor: a freshly constructed
decompressor (codec at the start of the header, Running, empty input
buffer — the shape every constructor of §4.5/§4.7 produces) with nothing
fed yet, extended by successful `decompress` calls with arbitrary chunking
and arbitrary `max_length`; each chunk consists of bytes (values < 256, as
the buffer protocol guarantees).  `fed` accumulates every byte handed to
the object. -/
inductive Reaches : Decompressor → Bytes → Prop where
  | init (d : Decompressor) (hc : d.codec = .header []) (he : d.eof = false)
      (hb : d.inputBuf = []) : Reaches d []
  | step (d : Decompressor) (fed data : Bytes) (ml : Int) (r : Bytes)
      (d' : Decompressor) (h : Reaches d fed)
      (hdata : ∀ b ∈ data, b < 256)
      (hcall : d.decompress data ml = (.ok r, d')) :
      Reaches d' (fed ++ data)

/-- The per-trace invariant (§3 "Decompressor" invariants): all fed bytes
are bytes, and either the machine is Running with `fed` split into the
codec-absorbed part and the unconsumed input buffer, or it is Eof with
`fed` split into one complete stream followed by exactly `unused_data`. -/
def Sound (d : Decompressor) (fed : Bytes) : Prop :=
  (∀ b ∈ fed, b < 256) ∧
  (if d.eof = true then
     ∃ dict n payload, payload.length = n ∧
       fed = (streamHeader dict n ++ payload) ++ d.unusedData
   else
     ∃ consumed, fed = consumed ++ d.inputBuf ∧ CodecParses consumed d.codec)

/-- Run a fresh single-threaded decompressor over `data` in one unbounded
call: `(output, unused, eofReached)` or the surfaced error.  This is the
per-stream unit of the one-shot scan (§4.5 "One-shot decompress"). -/
def runOne (memlimit : Option Nat) (data : Bytes) :
    Except DecErr (Bytes × Bytes × Bool) :=
  match (freshDec memlimit).decompress data (-1) with
  | (.ok out, d2) => .ok (out, d2.unusedData, d2.eof)
  | (.error e, _) => .error e

/-- Modelled from the spec: the concatenated-stream scan of the one-shot
`decompress` (§4.5 "One-shot decompress", §7 "Truncated input"): run a
fresh decompressor per stream; a failure on trailing bytes after at least
one complete stream discards them; a stream that ends without reaching
EOF is a codec error; otherwise continue over `unused_data`. -/
def decompressLoop (memlimit : Option Nat) :
    Nat → Bytes → Bytes → Bool → Except DecErr Bytes
  | 0, _, _, _ => .error (.lzmaError .bufError)
  | fuel + 1, data, acc, first =>
      match runOne memlimit data with
      | .error e => if first then .error e else .ok acc
      | .ok (out, unused, isEof) =>
          if isEof = false then .error (.lzmaError .dataError)
          else if unused.isEmpty then .ok (acc ++ out)
          else decompressLoop memlimit fuel unused (acc ++ out) false

/-- Modelled from the spec: the one-shot `decompress` entry point (§4.5
"One-shot decompress"), absent from `src/` with `lzma_mt.pyx`. -/
def decompress (data : Bytes) (memlimit : Option Nat := none) :
    Except DecErr Bytes :=
  decompressLoop memlimit (data.length + 1) data [] true

/-- Streaming compressor state (§3 "Compressor", §4.4): the encoder may
buffer all input until the terminal flush. -/
structure Compressor where
  buffered : Bytes
  flushed : Bool
  deriving DecidableEq, Repr

/-- Modelled from the spec: `LZMACompressor.compress(data)` (§4.4): fails
with a value error once Flushed, otherwise feeds the data (the encoder is
entitled to buffer and return nothing).  The real implementation in
`lzma_mt.pyx` is absent from `src/`. -/
def Compressor.compress (c : Compressor) (data : Bytes) :
    Except DecErr Bytes × Compressor :=
  if c.flushed then (.error .valueError, c)
  else (.ok [], { c with buffered := c.buffered ++ data })

/-- Modelled from the spec: `LZMACompressor.flush()` (§4.4): fails with a
value error once Flushed; otherwise drives the encoder to StreamEnd,
emitting the whole container, and marks Flushed. -/
def Compressor.flush (c : Compressor) : Except DecErr Bytes × Compressor :=
  if c.flushed then (.error .valueError, c)
  else (.ok (encodeStream defaultDictSize c.buffered), { c with flushed := true })

/-- The three buffer-protocol views a caller can pass to one-shot
`compress`: `bytes`, `bytearray`, or a contiguous `memoryview` slice of a
backing buffer. -/
inductive ByteSource where
  | plainBytes (data : Bytes)
  | byteArray (data : Bytes)
  | memoryView (backing : Bytes) (off : Nat) (len : Nat)
  deriving DecidableEq, Repr

/-- The byte content a buffer view exposes (the contiguous byte run the
buffer protocol hands to the codec). -/
def ByteSource.toBytes : ByteSource → Bytes
  | .plainBytes data => data
  | .byteArray data => data
  | .memoryView backing off len => (backing.drop off).take len

/-- Modelled from the spec: one-shot `compress` over any buffer-protocol
input — the façade obtains the contiguous byte run and compresses it
(§4.7); the buffer-protocol handling in `lzma_mt.pyx` is absent from
`src/`. -/
def compressSrc (s : ByteSource) : Bytes :=
  compress s.toBytes

/-! ## Basic facts about the model container -/

theorem streamHeader_explicit (dict n : Nat) :
    streamHeader dict n =
      [253, 55, 122, 88, 90, 0,
       dict / 16777216 % 256, dict / 65536 % 256, dict / 256 % 256, dict % 256,
       n / 16777216 % 256, n / 65536 % 256, n / 256 % 256, n % 256] := rfl

theorem streamHeader_length (dict n : Nat) : (streamHeader dict n).length = 14 := rfl

theorem streamHeader_take6 (dict n : Nat) : (streamHeader dict n).take 6 = xzMagic := rfl

theorem compress_eq (x : Bytes) :
    compress x = streamHeader defaultDictSize x.length ++ x := rfl

theorem compress_length (x : Bytes) : (compress x).length = 14 + x.length := by
  rw [compress_eq, List.length_append, streamHeader_length]

theorem startsLikeXz_streamHeader (dict n : Nat) :
    startsLikeXz (streamHeader dict n) = true := by
  unfold startsLikeXz
  rw [streamHeader_take6, streamHeader_length]
  rfl

theorem startsLikeXz_take14 (l : Bytes) :
    startsLikeXz (l.take 14) = startsLikeXz l := by
  unfold startsLikeXz
  rw [decide_eq_decide, List.take_take, List.length_take]
  have h6 : min 6 14 = 6 := rfl
  rw [h6]
  rcases le_or_lt l.length 14 with h | h
  · rw [Nat.min_eq_right h]
  · rw [Nat.min_eq_left h.le,
        List.take_of_length_le (l := xzMagic) (by simp [xzMagic]),
        List.take_of_length_le (l := xzMagic) (by simp [xzMagic]; omega)]

theorem decBE32_streamHeader_len (dict n : Nat) (hn : n < 4294967296) :
    decBE32 ((streamHeader dict n).getD 10 0) ((streamHeader dict n).getD 11 0)
      ((streamHeader dict n).getD 12 0) ((streamHeader dict n).getD 13 0) = n := by
  show decBE32 (n / 16777216 % 256) (n / 65536 % 256) (n / 256 % 256) (n % 256) = n
  unfold decBE32
  omega

theorem decBE32_streamHeader_dict (dict n : Nat) (hd : dict < 4294967296) :
    decBE32 ((streamHeader dict n).getD 6 0) ((streamHeader dict n).getD 7 0)
      ((streamHeader dict n).getD 8 0) ((streamHeader dict n).getD 9 0) = dict := by
  show decBE32 (dict / 16777216 % 256) (dict / 65536 % 256) (dict / 256 % 256)
    (dict % 256) = dict
  unfold decBE32
  omega

/-! ## Single-step decoder lemmas -/

theorem decStep_header_none (dict n : Nat) (tail : Bytes) (outSpace : Option Nat)
    (hn : n < 4294967296) :
    decStep none (.header []) (streamHeader dict n ++ tail) outSpace
      = (.ok, 14, [], .body n) := by
  have htake : (streamHeader dict n ++ tail).take 14 = streamHeader dict n :=
    List.take_left' (streamHeader_length dict n)
  unfold decStep
  simp only [List.length_nil, Nat.sub_zero, htake, List.nil_append,
    startsLikeXz_streamHeader, streamHeader_length,
    decBE32_streamHeader_len dict n hn]
  norm_num

theorem decStep_header_memlimit (n : Nat) (tail : Bytes) (outSpace : Option Nat) :
    decStep (some 1024) (.header []) (streamHeader defaultDictSize n ++ tail) outSpace
      = (.memError, 14, [], .header (streamHeader defaultDictSize n)) := by
  have htake : (streamHeader defaultDictSize n ++ tail).take 14
      = streamHeader defaultDictSize n :=
    List.take_left' (streamHeader_length defaultDictSize n)
  have hdict := decBE32_streamHeader_dict defaultDictSize n
    (by norm_num [defaultDictSize])
  unfold decStep
  simp only [List.length_nil, Nat.sub_zero, htake, List.nil_append,
    startsLikeXz_streamHeader, streamHeader_length, hdict]
  norm_num [defaultDictSize]

theorem decStep_header_junk (ml : Option Nat) (junk : Bytes) (outSpace : Option Nat)
    (h : startsLikeXz junk = false) :
    decStep ml (.header []) junk outSpace
      = (.dataError, (junk.take 14).length, [], .header (junk.take 14)) := by
  unfold decStep
  simp only [List.length_nil, Nat.sub_zero, List.nil_append, startsLikeXz_take14, h]
  simp

theorem decStep_body_zero (ml : Option Nat) (input : Bytes) (outSpace : Option Nat) :
    decStep ml (.body 0) input outSpace = (.streamEnd, 0, [], .finished) := by
  unfold decStep
  simp

theorem decStep_body_all (x rest : Bytes) (hx : x ≠ []) :
    decStep none (.body x.length) (x ++ rest) none
      = (.streamEnd, x.length, x, .finished) := by
  have h0 : x.length ≠ 0 := by simpa using hx
  have hk : min x.length (x ++ rest).length = x.length := by
    rw [List.length_append]
    omega
  unfold decStep
  simp only [hk, if_neg h0, if_neg (h0 : ¬x.length = 0), List.take_left]
  simp

/-! ## Pumping-loop lemmas -/

theorem decLoop_stream (x rest : Bytes) (fuel : Nat) (hx : x.length < 4294967296) :
    decLoop none none (fuel + 2) (.header [])
        (streamHeader defaultDictSize x.length ++ (x ++ rest)) []
      = .ok (.finished, rest, x, true) := by
  have h1 : fuel + 2 = (fuel + 1) + 1 := rfl
  rw [h1]
  unfold decLoop
  dsimp only
  rw [decStep_header_none defaultDictSize x.length (x ++ rest) _ hx]
  simp only [List.drop_left' (streamHeader_length defaultDictSize x.length),
    List.nil_append, List.append_nil]
  norm_num
  by_cases hx0 : x = []
  · subst hx0
    unfold decLoop
    dsimp only
    simp only [List.length_nil, List.nil_append, Option.map_none']
    rw [decStep_body_zero]
    simp
  · unfold decLoop
    dsimp only
    simp only [Option.map_none']
    rw [decStep_body_all x rest hx0]
    simp [List.drop_left]

theorem decLoop_junk (ml : Option Nat) (cap : Option Nat) (junk : Bytes) (fuel : Nat)
    (h : startsLikeXz junk = false) :
    decLoop ml cap (fuel + 1) (.header []) junk [] = .error (.lzmaError .dataError) := by
  unfold decLoop
  dsimp only
  rw [decStep_header_junk ml junk _ h]

theorem decLoop_memlimit (n : Nat) (tail : Bytes) (cap : Option Nat) (fuel : Nat) :
    decLoop (some 1024) cap (fuel + 1) (.header [])
        (streamHeader defaultDictSize n ++ tail) []
      = .error .memError := by
  unfold decLoop
  dsimp only
  rw [decStep_header_memlimit n tail]

/-! ## Whole-call lemmas for a fresh decompressor -/

theorem decompress_fresh_stream (x trailing : Bytes) (hx : x.length < 4294967296) :
    (freshDec none).decompress (compress x ++ trailing) (-1)
      = (.ok x,
         { codec := .finished, mode := .st, memlimit := none, inputBuf := [],
           eof := true, needsInput := false, unusedData := trailing,
           poisoned := false }) := by
  unfold Decompressor.decompress freshDec
  norm_num
  have hform : compress x ++ trailing
      = streamHeader defaultDictSize x.length ++ (x ++ trailing) := by
    rw [compress_eq, List.append_assoc]
  have hfuel : (compress x).length + trailing.length + 3
      = ((compress x).length + trailing.length + 1) + 2 := rfl
  rw [hfuel, hform, decLoop_stream x trailing _ hx]
  rfl

theorem runOne_stream (x rest : Bytes) (hx : x.length < 4294967296) :
    runOne none (compress x ++ rest) = .ok (x, rest, true) := by
  unfold runOne
  rw [decompress_fresh_stream x rest hx]

theorem runOne_junk (ml : Option Nat) (junk : Bytes) (h : startsLikeXz junk = false) :
    runOne ml junk = .error (.lzmaError .dataError) := by
  unfold runOne Decompressor.decompress freshDec
  norm_num
  have hfuel : junk.length + 3 = (junk.length + 2) + 1 := rfl
  rw [hfuel, decLoop_junk ml none junk _ h]

theorem decompress_fresh_memlimit (x : Bytes) :
    (freshDec (some 1024)).decompress (compress x) (-1)
      = (.error .memError, freshDec (some 1024)) := by
  have hf : ¬(false = true) := by simp
  have h3 : ¬((-1 : Int) = 0) := by norm_num
  have h4 : ((-1 : Int) < 0) := by norm_num
  have hfuel : (compress x).length + 3 = ((compress x).length + 2) + 1 := rfl
  unfold Decompressor.decompress freshDec
  dsimp only
  rw [if_neg hf, if_neg hf, if_neg h3, if_pos h4, List.nil_append, hfuel,
    compress_eq, decLoop_memlimit x.length x none _]

theorem runOne_memlimit (x : Bytes) :
    runOne (some 1024) (compress x) = .error .memError := by
  unfold runOne
  rw [decompress_fresh_memlimit x]

/-! ## One-shot decompress lemmas -/

theorem startsLikeXz_nil : startsLikeXz ([] : Bytes) = true := rfl

theorem flatten_map_compress_length (xs : List Bytes) :
    xs.length ≤ ((xs.map compress).flatten).length := by
  induction xs with
  | nil => simp
  | cons x xs ih =>
      simp only [List.map_cons, List.flatten_cons, List.length_append,
        List.length_cons, compress_length]
      omega

theorem decompressLoop_streams (xs : List Bytes) :
    ∀ (junk acc : Bytes) (fuel : Nat),
      (∀ z ∈ xs, z.length < 4294967296) →
      startsLikeXz junk = false →
      xs.length < fuel →
      decompressLoop none fuel ((xs.map compress).flatten ++ junk) acc false
        = .ok (acc ++ xs.flatten) := by
  induction xs with
  | nil =>
      intro junk acc fuel hlen hjunk hfuel
      cases fuel with
      | zero => omega
      | succ f =>
          simp only [List.map_nil, List.flatten_nil, List.nil_append]
          unfold decompressLoop
          rw [runOne_junk none junk hjunk]
          simp
  | cons x xs ih =>
      intro junk acc fuel hlen hjunk hfuel
      cases fuel with
      | zero => simp at hfuel
      | succ f =>
          have hx : x.length < 4294967296 := hlen x (by simp)
          have hjne : junk ≠ [] := by
            intro hn
            rw [hn] at hjunk
            exact absurd hjunk (by decide)
          simp only [List.map_cons, List.flatten_cons, List.append_assoc]
          unfold decompressLoop
          rw [runOne_stream x ((xs.map compress).flatten ++ junk) hx]
          have hune : ((xs.map compress).flatten ++ junk).isEmpty = false := by
            simp [hjne]
          dsimp only
          rw [hune]
          simp only [Bool.false_eq_true, if_false]
          rw [ih junk (acc ++ x) f (fun z hz => hlen z (by simp [hz])) hjunk
            (by simp at hfuel; omega)]
          simp

theorem oneshot_streams (x : Bytes) (xs : List Bytes) (junk : Bytes)
    (hlen : ∀ z ∈ x :: xs, z.length < 4294967296)
    (hjunk : startsLikeXz junk = false) :
    decompress (((x :: xs).map compress).flatten ++ junk) none
      = .ok (x :: xs).flatten := by
  have hx : x.length < 4294967296 := hlen x (by simp)
  have hjne : junk ≠ [] := by
    intro hn
    rw [hn] at hjunk
    exact absurd hjunk (by decide)
  have hrest : xs.length ≤ ((xs.map compress).flatten).length :=
    flatten_map_compress_length xs
  unfold decompress
  simp only [List.map_cons, List.flatten_cons, List.append_assoc]
  unfold decompressLoop
  rw [runOne_stream x ((xs.map compress).flatten ++ junk) hx]
  have hune : ((xs.map compress).flatten ++ junk).isEmpty = false := by
    simp [hjne]
  dsimp only
  rw [hune]
  simp only [Bool.false_eq_true, if_false]
  rw [decompressLoop_streams xs junk ([] ++ x) _
    (fun z hz => hlen z (by simp [hz])) hjunk
    (by simp only [List.length_append, compress_length]; omega)]
  simp

theorem decompress_compress (x : Bytes) (hx : x.length < 4294967296) :
    decompress (compress x) none = .ok x := by
  unfold decompress
  unfold decompressLoop
  have h := runOne_stream x [] hx
  rw [List.append_nil] at h
  rw [h]
  simp

theorem decompress_memlimit_oneshot (x : Bytes) :
    decompress (compress x) (some 1024) = .error .memError := by
  unfold decompress
  unfold decompressLoop
  rw [runOne_memlimit x]
  rfl

/-! ## Universal state-machine lemmas -/

theorem decompress_of_terminal (d : Decompressor) (data : Bytes) (ml : Int)
    (h : d.eof = true ∨ d.poisoned = true) :
    (d.decompress data ml).1 = .error .valueError := by
  unfold Decompressor.decompress
  by_cases he : d.eof = true
  · rw [if_pos he]
  · rw [if_neg he]
    have hp : d.poisoned = true := h.resolve_left he
    rw [if_pos hp]

theorem decompress_error_poisons (d0 : Decompressor) (data0 : Bytes) (ml0 : Int)
    (s : Status) (d1 : Decompressor)
    (h : d0.decompress data0 ml0 = (.error (.lzmaError s), d1)) :
    d1.poisoned = true := by
  unfold Decompressor.decompress at h
  by_cases he : d0.eof = true
  · rw [if_pos he] at h
    simp [Prod.ext_iff] at h
  · rw [if_neg he] at h
    by_cases hp : d0.poisoned = true
    · rw [if_pos hp] at h
      simp [Prod.ext_iff] at h
    · rw [if_neg hp] at h
      by_cases hm : ml0 = 0
      · rw [if_pos hm] at h
        simp [Prod.ext_iff] at h
      · rw [if_neg hm] at h
        dsimp only at h
        cases hL : decLoop d0.memlimit (if ml0 < 0 then none else some ml0.toNat)
            ((d0.inputBuf ++ data0).length + 3) d0.codec (d0.inputBuf ++ data0) [] with
        | ok v =>
            obtain ⟨st2, buf2, out, isEof⟩ := v
            rw [hL] at h
            simp [Prod.ext_iff] at h
        | error e =>
            rw [hL] at h
            cases e with
            | valueError => simp [Prod.ext_iff] at h
            | memError => simp [Prod.ext_iff] at h
            | lzmaError s2 =>
                have h2 := congrArg Prod.snd h
                simp only at h2
                rw [← h2]

theorem decompress_needs_input (d : Decompressor) (data : Bytes) (ml : Int)
    (r : Bytes) (d' : Decompressor)
    (h : d.decompress data ml = (.ok r, d')) :
    d'.needsInput = (d'.inputBuf.isEmpty && !d'.eof) := by
  unfold Decompressor.decompress at h
  by_cases he : d.eof = true
  · rw [if_pos he] at h
    simp [Prod.ext_iff] at h
  · rw [if_neg he] at h
    by_cases hp : d.poisoned = true
    · rw [if_pos hp] at h
      simp [Prod.ext_iff] at h
    · rw [if_neg hp] at h
      by_cases hm : ml = 0
      · rw [if_pos hm] at h
        have h2 := congrArg Prod.snd h
        simp only at h2
        rw [← h2]
        simp only [Bool.not_eq_true] at he
        simp [he]
      · rw [if_neg hm] at h
        dsimp only at h
        cases hL : decLoop d.memlimit (if ml < 0 then none else some ml.toNat)
            ((d.inputBuf ++ data).length + 3) d.codec (d.inputBuf ++ data) [] with
        | ok v =>
            obtain ⟨st2, buf2, out, isEof⟩ := v
            rw [hL] at h
            have h2 := congrArg Prod.snd h
            simp only at h2
            rw [← h2]
            cases isEof <;> simp
        | error e =>
            rw [hL] at h
            cases e with
            | valueError => simp [Prod.ext_iff] at h
            | memError => simp [Prod.ext_iff] at h
            | lzmaError s2 => simp [Prod.ext_iff] at h

theorem decStep_out_le (ml : Option Nat) (st : DecState) (input : Bytes) (s : Nat) :
    (decStep ml st input (some s)).2.2.1.length ≤ s := by
  unfold decStep
  cases st with
  | finished => simp
  | header acc =>
      dsimp only
      split
      · simp
      · split
        · simp
        · cases ml with
          | none => simp
          | some m =>
              dsimp only
              split <;> simp
  | body n =>
      dsimp only
      split
      · simp
      · split
        · simp
        · split
          · rename_i hne hk0 hkn
            simp only [List.length_take]
            omega
          · rename_i hne hk0 hkn
            simp only [List.length_take]
            omega

theorem decLoop_length_le (ml : Option Nat) (c : Nat) :
    ∀ (fuel : Nat) (st : DecState) (buf acc : Bytes) (st2 : DecState)
      (buf2 out : Bytes) (e : Bool),
      acc.length ≤ c →
      decLoop ml (some c) fuel st buf acc = .ok (st2, buf2, out, e) →
      out.length ≤ c := by
  intro fuel
  induction fuel with
  | zero =>
      intro st buf acc st2 buf2 out e hacc h
      unfold decLoop at h
      simp only [Except.ok.injEq, Prod.mk.injEq] at h
      obtain ⟨-, -, h3, -⟩ := h
      rw [← h3]
      exact hacc
  | succ fuel ih =>
      intro st buf acc st2 buf2 out e hacc h
      unfold decLoop at h
      dsimp only [Option.map_some'] at h
      rcases hS : decStep ml st buf (some (c - acc.length)) with ⟨status, consumed, out0, stN⟩
      have hout0 : out0.length ≤ c - acc.length := by
        have := decStep_out_le ml st buf (c - acc.length)
        rw [hS] at this
        exact this
      rw [hS] at h
      cases status with
      | streamEnd =>
          simp only [Except.ok.injEq, Prod.mk.injEq] at h
          obtain ⟨-, -, h3, -⟩ := h
          rw [← h3]
          simp only [List.length_append]
          omega
      | ok =>
          dsimp only at h
          by_cases hc1 : (decide ((acc ++ out0).length = c) && !out0.isEmpty) = true
          · rw [if_pos hc1] at h
            simp only [Except.ok.injEq, Prod.mk.injEq] at h
            obtain ⟨-, -, h3, -⟩ := h
            rw [← h3]
            simp only [List.length_append]
            omega
          · rw [if_neg hc1] at h
            by_cases hc2 : (decide (consumed = 0) && out0.isEmpty) = true
            · rw [if_pos hc2] at h
              simp only [Except.ok.injEq, Prod.mk.injEq] at h
              obtain ⟨-, -, h3, -⟩ := h
              rw [← h3]
              simp only [List.length_append]
              omega
            · rw [if_neg hc2] at h
              exact ih stN (buf.drop consumed) (acc ++ out0) st2 buf2 out e
                (by simp only [List.length_append]; omega) h
      | bufError => simp at h
      | memError => simp at h
      | dataError => simp at h
      | formatError => simp at h

theorem decompress_length_le (d : Decompressor) (data : Bytes) (k : Int)
    (r : Bytes) (d' : Decompressor)
    (hk : 0 ≤ k) (h : d.decompress data k = (.ok r, d')) :
    r.length ≤ k.toNat := by
  unfold Decompressor.decompress at h
  by_cases he : d.eof = true
  · rw [if_pos he] at h
    simp [Prod.ext_iff] at h
  · rw [if_neg he] at h
    by_cases hp : d.poisoned = true
    · rw [if_pos hp] at h
      simp [Prod.ext_iff] at h
    · rw [if_neg hp] at h
      by_cases hm : k = 0
      · rw [if_pos hm] at h
        have h1 := congrArg Prod.fst h
        simp only [Except.ok.injEq] at h1
        rw [← h1]
        simp
      · rw [if_neg hm] at h
        rw [if_neg (by omega : ¬ k < 0)] at h
        dsimp only at h
        cases hL : decLoop d.memlimit (some k.toNat)
            ((d.inputBuf ++ data).length + 3) d.codec (d.inputBuf ++ data) [] with
        | ok v =>
            obtain ⟨st2, buf2, out, isEof⟩ := v
            rw [hL] at h
            have h1 := congrArg Prod.fst h
            simp only [Except.ok.injEq] at h1
            rw [← h1]
            exact decLoop_length_le d.memlimit k.toNat _ d.codec
              (d.inputBuf ++ data) [] st2 buf2 out isEof (by simp) hL
        | error e =>
            rw [hL] at h
            cases e with
            | valueError => simp [Prod.ext_iff] at h
            | memError => simp [Prod.ext_iff] at h
            | lzmaError s2 => simp [Prod.ext_iff] at h

theorem decompress_zero_parks (d : Decompressor) (data : Bytes)
    (he : d.eof = false) (hp : d.poisoned = false) :
    d.decompress data 0 =
      (.ok [], { d with inputBuf := d.inputBuf ++ data,
                        needsInput := (d.inputBuf ++ data).isEmpty }) := by
  unfold Decompressor.decompress
  rw [if_neg (by simp [he]), if_neg (by simp [hp]), if_pos rfl]

/-! ## Compressor state-machine lemmas -/

theorem flush_flushed (c : Compressor) : (c.flush).2.flushed = true := by
  unfold Compressor.flush
  split
  · next h => exact h
  · rfl

theorem flush_of_flushed (c : Compressor) (h : c.flushed = true) :
    (c.flush).1 = .error .valueError := by
  unfold Compressor.flush
  rw [if_pos h]

theorem compress_of_flushed (c : Compressor) (data : Bytes) (h : c.flushed = true) :
    (c.compress data).1 = .error .valueError := by
  unfold Compressor.compress
  rw [if_pos h]

/-! ## Trace invariant: what a Running or Eof decompressor has absorbed -/

theorem encBE32_decBE32 (a b c d : Nat) (ha : a < 256) (hb : b < 256)
    (hc : c < 256) (hd : d < 256) :
    encBE32 (decBE32 a b c d) = [a, b, c, d] := by
  simp only [encBE32, decBE32, List.cons.injEq, and_true]
  omega

theorem eq_four_getD (t : Bytes) (h : t.length = 4) :
    t = [t.getD 0 0, t.getD 1 0, t.getD 2 0, t.getD 3 0] := by
  cases t with
  | nil => simp at h
  | cons a t =>
    cases t with
    | nil => simp at h
    | cons b t =>
      cases t with
      | nil => simp at h
      | cons c t =>
        cases t with
        | nil => simp at h
        | cons d t =>
          cases t with
          | cons e t => simp only [List.length_cons, List.length_nil] at h; omega
          | nil => rfl

theorem slice4_getD (l : Bytes) (i : Nat) (h : i + 4 ≤ l.length) :
    (l.drop i).take 4 =
      [l.getD i 0, l.getD (i + 1) 0, l.getD (i + 2) 0, l.getD (i + 3) 0] := by
  have hlen : ((l.drop i).take 4).length = 4 := by
    simp only [List.length_take, List.length_drop]
    omega
  have hget : ∀ j, j < 4 → ((l.drop i).take 4).getD j 0 = l.getD (i + j) 0 := by
    intro j hj
    simp [List.getD_eq_getElem?_getD, List.getElem?_take, hj, List.getElem?_drop]
  rw [eq_four_getD _ hlen, hget 0 (by omega), hget 1 (by omega),
    hget 2 (by omega), hget 3 (by omega)]
  simp

theorem header_full_parses (acc2 : Bytes) (h14 : acc2.length = 14)
    (hmagic : startsLikeXz acc2 = true)
    (hb : ∀ b ∈ acc2, b < 256) :
    acc2 = streamHeader
        (decBE32 (acc2.getD 6 0) (acc2.getD 7 0) (acc2.getD 8 0) (acc2.getD 9 0))
        (decBE32 (acc2.getD 10 0) (acc2.getD 11 0) (acc2.getD 12 0)
          (acc2.getD 13 0)) := by
  have h6 : acc2.take 6 = xzMagic := by
    unfold startsLikeXz at hmagic
    have h := of_decide_eq_true hmagic
    rw [h14] at h
    simpa [xzMagic] using h
  have hbm : ∀ j, j < 14 → acc2.getD j 0 < 256 := by
    intro j hj
    apply hb
    rw [List.getD_eq_getElem acc2 0 (by omega)]
    exact List.getElem_mem _
  have hs1 : (acc2.drop 6).take 4 =
      [acc2.getD 6 0, acc2.getD 7 0, acc2.getD 8 0, acc2.getD 9 0] :=
    slice4_getD acc2 6 (by omega)
  have hs2 : (acc2.drop 10).take 4 =
      [acc2.getD 10 0, acc2.getD 11 0, acc2.getD 12 0, acc2.getD 13 0] :=
    slice4_getD acc2 10 (by omega)
  have hd6 : acc2.drop 6 = (acc2.drop 6).take 4 ++ acc2.drop 10 := by
    conv_lhs => rw [← List.take_append_drop 4 (acc2.drop 6)]
    rw [List.drop_drop]
  have hd10 : acc2.drop 10 = (acc2.drop 10).take 4 := by
    conv_lhs => rw [← List.take_append_drop 4 (acc2.drop 10)]
    rw [List.drop_drop,
      List.drop_eq_nil_of_le (show acc2.length ≤ 10 + 4 by omega),
      List.append_nil]
  calc acc2 = acc2.take 6 ++ acc2.drop 6 := (List.take_append_drop 6 acc2).symm
    _ = acc2.take 6 ++ ((acc2.drop 6).take 4 ++ acc2.drop 10) := by rw [← hd6]
    _ = acc2.take 6 ++ ((acc2.drop 6).take 4 ++ (acc2.drop 10).take 4) := by
        rw [← hd10]
    _ = xzMagic ++
          (encBE32 (decBE32 (acc2.getD 6 0) (acc2.getD 7 0) (acc2.getD 8 0)
              (acc2.getD 9 0)) ++
           encBE32 (decBE32 (acc2.getD 10 0) (acc2.getD 11 0) (acc2.getD 12 0)
              (acc2.getD 13 0))) := by
        rw [h6, hs1, hs2,
          encBE32_decBE32 _ _ _ _ (hbm 6 (by omega)) (hbm 7 (by omega))
            (hbm 8 (by omega)) (hbm 9 (by omega)),
          encBE32_decBE32 _ _ _ _ (hbm 10 (by omega)) (hbm 11 (by omega))
            (hbm 12 (by omega)) (hbm 13 (by omega))]
    _ = streamHeader _ _ := by
        rw [streamHeader, List.append_assoc]

theorem take_length_take (l : Bytes) (m : Nat) :
    l.take ((l.take m).length) = l.take m := by
  rw [List.length_take]
  rcases le_or_lt m l.length with h | h
  · rw [Nat.min_eq_left h]
  · rw [Nat.min_eq_right h.le, List.take_length, List.take_of_length_le h.le]

theorem decStep_parses (ml : Option Nat) (st : DecState) (input : Bytes)
    (outSpace : Option Nat) (consumed : Bytes)
    (hp : CodecParses consumed st)
    (hby : ∀ b ∈ consumed ++ input, b < 256) :
    (∀ c out st2, decStep ml st input outSpace = (.ok, c, out, st2) →
        CodecParses (consumed ++ input.take c) st2) ∧
    (∀ c out st2, decStep ml st input outSpace = (.streamEnd, c, out, st2) →
        ∃ dict n payload, payload.length = n ∧
          consumed ++ input.take c = streamHeader dict n ++ payload) := by
  cases st with
  | finished => exact absurd hp (by simp [CodecParses])
  | header acc =>
      obtain ⟨hceq, hlt⟩ := hp
      subst hceq
      by_cases hcl : startsLikeXz (consumed ++ input.take (14 - consumed.length)) = false
      · constructor <;>
          · intro c out st2 h
            unfold decStep at h
            dsimp only at h
            rw [if_pos hcl] at h
            simp [Prod.ext_iff] at h
      · by_cases hll : (consumed ++ input.take (14 - consumed.length)).length < 14
        · constructor
          · intro c out st2 h
            unfold decStep at h
            dsimp only at h
            rw [if_neg hcl, if_pos hll] at h
            have hc := congrArg (fun p => p.2.1) h
            have hout := congrArg (fun p => p.2.2.1) h
            have hst := congrArg (fun p => p.2.2.2) h
            simp only at hc hout hst
            subst hc
            subst hout
            subst hst
            rw [take_length_take]
            exact ⟨rfl, hll⟩
          · intro c out st2 h
            unfold decStep at h
            dsimp only at h
            rw [if_neg hcl, if_pos hll] at h
            simp [Prod.ext_iff] at h
        · have h14eq : (consumed ++ input.take (14 - consumed.length)).length = 14 := by
            have ht := List.length_take_le (14 - consumed.length) input
            simp only [List.length_append] at hll ⊢
            omega
          have hmag : startsLikeXz (consumed ++ input.take (14 - consumed.length)) = true := by
            cases hB : startsLikeXz (consumed ++ input.take (14 - consumed.length)) with
            | false => exact absurd hB hcl
            | true => rfl
          have hbytes : ∀ b ∈ consumed ++ input.take (14 - consumed.length), b < 256 := by
            intro b hbm
            apply hby
            rcases List.mem_append.mp hbm with h1 | h2
            · exact List.mem_append.mpr (Or.inl h1)
            · exact List.mem_append.mpr (Or.inr ((List.take_sublist _ _).mem h2))
          have hfull := header_full_parses _ h14eq hmag hbytes
          have hbody : CodecParses
              (consumed ++ input.take ((input.take (14 - consumed.length)).length))
              (.body (decBE32 ((consumed ++ input.take (14 - consumed.length)).getD 10 0)
                ((consumed ++ input.take (14 - consumed.length)).getD 11 0)
                ((consumed ++ input.take (14 - consumed.length)).getD 12 0)
                ((consumed ++ input.take (14 - consumed.length)).getD 13 0))) := by
            rw [take_length_take]
            exact ⟨_, _, [], by rw [List.append_nil]; exact hfull, by simp⟩
          cases ml with
          | none =>
              constructor
              · intro c out st2 h
                unfold decStep at h
                dsimp only at h
                rw [if_neg hcl, if_neg hll] at h
                have hc := congrArg (fun p => p.2.1) h
                have hst := congrArg (fun p => p.2.2.2) h
                simp only at hc hst
                subst hc
                subst hst
                exact hbody
              · intro c out st2 h
                unfold decStep at h
                dsimp only at h
                rw [if_neg hcl, if_neg hll] at h
                simp [Prod.ext_iff] at h
          | some m =>
              by_cases hmem : m < decBE32
                  ((consumed ++ input.take (14 - consumed.length)).getD 6 0)
                  ((consumed ++ input.take (14 - consumed.length)).getD 7 0)
                  ((consumed ++ input.take (14 - consumed.length)).getD 8 0)
                  ((consumed ++ input.take (14 - consumed.length)).getD 9 0)
              · constructor <;>
                  · intro c out st2 h
                    unfold decStep at h
                    dsimp only at h
                    rw [if_neg hcl, if_neg hll] at h
                    rw [if_pos hmem] at h
                    simp [Prod.ext_iff] at h
              · constructor
                · intro c out st2 h
                  unfold decStep at h
                  dsimp only at h
                  rw [if_neg hcl, if_neg hll] at h
                  rw [if_neg hmem] at h
                  have hc := congrArg (fun p => p.2.1) h
                  have hst := congrArg (fun p => p.2.2.2) h
                  simp only at hc hst
                  subst hc
                  subst hst
                  exact hbody
                · intro c out st2 h
                  unfold decStep at h
                  dsimp only at h
                  rw [if_neg hcl, if_neg hll] at h
                  rw [if_neg hmem] at h
                  simp [Prod.ext_iff] at h
  | body n =>
      obtain ⟨dict, len, payload, hcons, hplen⟩ := hp
      by_cases hn : n = 0
      · constructor
        · intro c out st2 h
          unfold decStep at h
          dsimp only at h
          rw [if_pos hn] at h
          simp [Prod.ext_iff] at h
        · intro c out st2 h
          unfold decStep at h
          dsimp only at h
          rw [if_pos hn] at h
          have hc := congrArg (fun p => p.2.1) h
          simp only at hc
          subst hc
          exact ⟨dict, len, payload, by omega,
            by rw [List.take_zero, List.append_nil]; exact hcons⟩
      · rcases outSpace with _ | s
        · by_cases hk0 : min n input.length = 0
          · constructor
            · intro c out st2 h
              unfold decStep at h
              dsimp only at h
              rw [if_neg hn] at h
              rw [if_pos hk0] at h
              have hc := congrArg (fun p => p.2.1) h
              have hst := congrArg (fun p => p.2.2.2) h
              simp only at hc hst
              subst hc
              subst hst
              exact ⟨dict, len, payload,
                by rw [List.take_zero, List.append_nil]; exact hcons, hplen⟩
            · intro c out st2 h
              unfold decStep at h
              dsimp only at h
              rw [if_neg hn] at h
              rw [if_pos hk0] at h
              simp [Prod.ext_iff] at h
          · by_cases hkn : min n input.length = n
            · constructor
              · intro c out st2 h
                unfold decStep at h
                dsimp only at h
                rw [if_neg hn] at h
                rw [if_neg hk0, if_pos hkn] at h
                simp [Prod.ext_iff] at h
              · intro c out st2 h
                unfold decStep at h
                dsimp only at h
                rw [if_neg hn] at h
                rw [if_neg hk0, if_pos hkn] at h
                have hc := congrArg (fun p => p.2.1) h
                simp only at hc
                subst hc
                refine ⟨dict, len, payload ++ input.take n, ?_, ?_⟩
                · simp only [List.length_append, List.length_take]
                  omega
                · rw [hcons, List.append_assoc]
            · constructor
              · intro c out st2 h
                unfold decStep at h
                dsimp only at h
                rw [if_neg hn] at h
                rw [if_neg hk0, if_neg hkn] at h
                have hc := congrArg (fun p => p.2.1) h
                have hst := congrArg (fun p => p.2.2.2) h
                simp only at hc hst
                subst hc
                subst hst
                refine ⟨dict, len, payload ++ input.take (min n input.length),
                  ?_, ?_⟩
                · rw [hcons, List.append_assoc]
                · simp only [List.length_append, List.length_take]
                  omega
              · intro c out st2 h
                unfold decStep at h
                dsimp only at h
                rw [if_neg hn] at h
                rw [if_neg hk0, if_neg hkn] at h
                simp [Prod.ext_iff] at h
        · by_cases hk0 : min n (min input.length s) = 0
          · constructor
            · intro c out st2 h
              unfold decStep at h
              dsimp only at h
              rw [if_neg hn] at h
              rw [if_pos hk0] at h
              have hc := congrArg (fun p => p.2.1) h
              have hst := congrArg (fun p => p.2.2.2) h
              simp only at hc hst
              subst hc
              subst hst
              exact ⟨dict, len, payload,
                by rw [List.take_zero, List.append_nil]; exact hcons, hplen⟩
            · intro c out st2 h
              unfold decStep at h
              dsimp only at h
              rw [if_neg hn] at h
              rw [if_pos hk0] at h
              simp [Prod.ext_iff] at h
          · by_cases hkn : min n (min input.length s) = n
            · constructor
              · intro c out st2 h
                unfold decStep at h
                dsimp only at h
                rw [if_neg hn] at h
                rw [if_neg hk0, if_pos hkn] at h
                simp [Prod.ext_iff] at h
              · intro c out st2 h
                unfold decStep at h
                dsimp only at h
                rw [if_neg hn] at h
                rw [if_neg hk0, if_pos hkn] at h
                have hc := congrArg (fun p => p.2.1) h
                simp only at hc
                subst hc
                refine ⟨dict, len, payload ++ input.take n, ?_, ?_⟩
                · simp only [List.length_append, List.length_take]
                  omega
                · rw [hcons, List.append_assoc]
            · constructor
              · intro c out st2 h
                unfold decStep at h
                dsimp only at h
                rw [if_neg hn] at h
                rw [if_neg hk0, if_neg hkn] at h
                have hc := congrArg (fun p => p.2.1) h
                have hst := congrArg (fun p => p.2.2.2) h
                simp only at hc hst
                subst hc
                subst hst
                refine ⟨dict, len,
                  payload ++ input.take (min n (min input.length s)), ?_, ?_⟩
                · rw [hcons, List.append_assoc]
                · simp only [List.length_append, List.length_take]
                  omega
              · intro c out st2 h
                unfold decStep at h
                dsimp only at h
                rw [if_neg hn] at h
                rw [if_neg hk0, if_neg hkn] at h
                simp [Prod.ext_iff] at h

theorem decLoop_parses (ml : Option Nat) (cap : Option Nat) :
    ∀ (fuel : Nat) (st : DecState) (buf acc : Bytes) (st2 : DecState)
      (buf2 out : Bytes) (isEof : Bool) (consumed : Bytes),
      CodecParses consumed st →
      (∀ b ∈ consumed ++ buf, b < 256) →
      decLoop ml cap fuel st buf acc = .ok (st2, buf2, out, isEof) →
      (isEof = false → ∃ consumed2, consumed ++ buf = consumed2 ++ buf2 ∧
          CodecParses consumed2 st2) ∧
      (isEof = true → ∃ dict n payload, payload.length = n ∧
          consumed ++ buf = (streamHeader dict n ++ payload) ++ buf2) := by
  intro fuel
  induction fuel with
  | zero =>
      intro st buf acc st2 buf2 out isEof consumed hp hby h
      unfold decLoop at h
      have h1 := congrArg (fun v => match v with
        | Except.ok (s, b, o, e) => (s, b, o, e)
        | Except.error _ => (st, buf, acc, false)) h
      simp only at h1
      have hst := congrArg (fun p => p.1) h1
      have hbuf := congrArg (fun p => p.2.1) h1
      have he := congrArg (fun p => p.2.2.2) h1
      simp only at hst hbuf he
      subst hst
      subst hbuf
      constructor
      · intro _
        exact ⟨consumed, rfl, hp⟩
      · intro htrue
        rw [← he] at htrue
        simp at htrue
  | succ fuel ih =>
      intro st buf acc st2 buf2 out isEof consumed hp hby h
      unfold decLoop at h
      dsimp only at h
      rcases hS : decStep ml st buf (cap.map fun c => c - acc.length)
        with ⟨status, c, out0, stN⟩
      have hpar := decStep_parses ml st buf (cap.map fun c => c - acc.length)
        consumed hp hby
      rw [hS] at h
      have hsplit : consumed ++ buf = (consumed ++ buf.take c) ++ buf.drop c := by
        rw [List.append_assoc, List.take_append_drop]
      have hbn : ∀ b ∈ (consumed ++ buf.take c) ++ buf.drop c, b < 256 := by
        intro b hbm
        rw [← hsplit] at hbm
        exact hby b hbm
      cases status with
      | streamEnd =>
          dsimp only at h
          have hst := congrArg (fun v => match v with
            | Except.ok (s, b, o, e) => (s, b, o, e)
            | Except.error _ => (stN, buf.drop c, acc ++ out0, true)) h
          simp only at hst
          have hst2 := congrArg (fun p => p.1) hst
          have hbuf := congrArg (fun p => p.2.1) hst
          have he := congrArg (fun p => p.2.2.2) hst
          simp only at hst2 hbuf he
          subst hst2
          subst hbuf
          constructor
          · intro hfalse
            rw [← he] at hfalse
            simp at hfalse
          · intro _
            obtain ⟨dict, n, payload, hlen, heq⟩ := hpar.2 c out0 stN hS
            exact ⟨dict, n, payload, hlen, by rw [hsplit, heq]⟩
      | ok =>
          dsimp only at h
          have hok := hpar.1 c out0 stN hS
          split at h
          · have hst := congrArg (fun v => match v with
              | Except.ok (s, b, o, e) => (s, b, o, e)
              | Except.error _ => (stN, buf.drop c, acc ++ out0, false)) h
            simp only at hst
            have hst2 := congrArg (fun p => p.1) hst
            have hbuf := congrArg (fun p => p.2.1) hst
            have he := congrArg (fun p => p.2.2.2) hst
            simp only at hst2 hbuf he
            subst hst2
            subst hbuf
            constructor
            · intro _
              exact ⟨consumed ++ buf.take c, hsplit, hok⟩
            · intro htrue
              rw [← he] at htrue
              simp at htrue
          · split at h
            · have hst := congrArg (fun v => match v with
                | Except.ok (s, b, o, e) => (s, b, o, e)
                | Except.error _ => (stN, buf.drop c, acc ++ out0, false)) h
              simp only at hst
              have hst2 := congrArg (fun p => p.1) hst
              have hbuf := congrArg (fun p => p.2.1) hst
              have he := congrArg (fun p => p.2.2.2) hst
              simp only at hst2 hbuf he
              subst hst2
              subst hbuf
              constructor
              · intro _
                exact ⟨consumed ++ buf.take c, hsplit, hok⟩
              · intro htrue
                rw [← he] at htrue
                simp at htrue
            · have hres := ih stN (buf.drop c) (acc ++ out0) st2 buf2 out isEof
                (consumed ++ buf.take c) hok hbn h
              constructor
              · intro hfalse
                obtain ⟨consumed2, heq, hparse⟩ := hres.1 hfalse
                exact ⟨consumed2, by rw [hsplit, heq], hparse⟩
              · intro htrue
                obtain ⟨dict, n, payload, hlen, heq⟩ := hres.2 htrue
                exact ⟨dict, n, payload, hlen, by rw [hsplit, heq]⟩
      | bufError => simp [Prod.ext_iff] at h
      | memError => simp [Prod.ext_iff] at h
      | dataError => simp [Prod.ext_iff] at h
      | formatError => simp [Prod.ext_iff] at h

theorem sound_step (d : Decompressor) (fed data : Bytes) (ml : Int) (r : Bytes)
    (d' : Decompressor) (hs : Sound d fed)
    (hdata : ∀ b ∈ data, b < 256)
    (hcall : d.decompress data ml = (.ok r, d')) :
    Sound d' (fed ++ data) := by
  obtain ⟨hbytes, hshape⟩ := hs
  have hbytes2 : ∀ b ∈ fed ++ data, b < 256 := by
    intro b hbm
    rcases List.mem_append.mp hbm with h1 | h2
    · exact hbytes b h1
    · exact hdata b h2
  unfold Decompressor.decompress at hcall
  by_cases he : d.eof = true
  · rw [if_pos he] at hcall
    simp [Prod.ext_iff] at hcall
  · rw [if_neg he] at hcall
    rw [if_neg he] at hshape
    obtain ⟨consumed, hfed, hparse⟩ := hshape
    by_cases hp : d.poisoned = true
    · rw [if_pos hp] at hcall
      simp [Prod.ext_iff] at hcall
    · rw [if_neg hp] at hcall
      by_cases hm : ml = 0
      · rw [if_pos hm] at hcall
        have hd' := congrArg Prod.snd hcall
        simp only at hd'
        rw [← hd']
        refine ⟨hbytes2, ?_⟩
        dsimp only
        rw [if_neg he]
        exact ⟨consumed, by rw [hfed, List.append_assoc], hparse⟩
      · rw [if_neg hm] at hcall
        dsimp only at hcall
        cases hL : decLoop d.memlimit (if ml < 0 then none else some ml.toNat)
            ((d.inputBuf ++ data).length + 3) d.codec (d.inputBuf ++ data) [] with
        | error e =>
            rw [hL] at hcall
            cases e with
            | valueError => simp [Prod.ext_iff] at hcall
            | memError => simp [Prod.ext_iff] at hcall
            | lzmaError s2 => simp [Prod.ext_iff] at hcall
        | ok v =>
            obtain ⟨st2, buf2, out, isEof⟩ := v
            rw [hL] at hcall
            have hd' := congrArg Prod.snd hcall
            simp only at hd'
            rw [← hd']
            have hby2 : ∀ b ∈ consumed ++ (d.inputBuf ++ data), b < 256 := by
              intro b hbm
              rcases List.mem_append.mp hbm with h1 | h2
              · apply hbytes
                rw [hfed]
                exact List.mem_append.mpr (Or.inl h1)
              · rcases List.mem_append.mp h2 with h3 | h4
                · apply hbytes
                  rw [hfed]
                  exact List.mem_append.mpr (Or.inr h3)
                · exact hdata b h4
            have hres := decLoop_parses d.memlimit
              (if ml < 0 then none else some ml.toNat)
              ((d.inputBuf ++ data).length + 3) d.codec (d.inputBuf ++ data) []
              st2 buf2 out isEof consumed hparse hby2 hL
            have hfed2 : fed ++ data = consumed ++ (d.inputBuf ++ data) := by
              rw [hfed, List.append_assoc]
            refine ⟨hbytes2, ?_⟩
            cases isEof with
            | true =>
                dsimp only
                simp only [eq_self_iff_true, if_true]
                obtain ⟨dict, n, payload, hlen, heq⟩ := hres.2 rfl
                exact ⟨dict, n, payload, hlen, by rw [hfed2, heq]⟩
            | false =>
                dsimp only
                simp only [Bool.false_eq_true, if_false]
                obtain ⟨consumed2, heq, hparse2⟩ := hres.1 rfl
                exact ⟨consumed2, by rw [hfed2, heq], hparse2⟩

theorem reaches_sound (d : Decompressor) (fed : Bytes) (h : Reaches d fed) :
    Sound d fed := by
  induction h with
  | init d hc he hb =>
      refine ⟨by simp, ?_⟩
      rw [if_neg (by simp [he])]
      refine ⟨[], by simp [hb], ?_⟩
      rw [hc]
      exact ⟨rfl, by decide⟩
  | step d fed data ml r d' h hdata hcall ih =>
      exact sound_step d fed data ml r d' ih hdata hcall

/-! ## Claim theorems -/

/-- C1: for every byte sequence `x` (whose length fits the container's
4-byte length field), one-shot `decompress` applied to one-shot `compress`
of `x` with default parameters returns exactly `x`. -/
theorem oneshot_roundtrip (x : Bytes) (hx : x.length < 4294967296) :
    decompress (compress x) none = .ok x :=
  decompress_compress x hx

theorem oneshot_roundtrip_witness :
    ([1, 2, 3] : Bytes).length < 4294967296 ∧
    decompress (compress [1, 2, 3]) none = .ok [1, 2, 3] :=
  ⟨by decide, oneshot_roundtrip [1, 2, 3] (by decide)⟩

/-- C2: constructing a decompressor with `threads ≠ 1` (and `threads ≥ 0`)
while `is_mt_decoder_safe()` is false succeeds — no error is surfaced — and
the decompressor silently falls back to single-threaded decoding. -/
theorem mt_decoder_fallback (threads : Int) (v : XzVersion) (memlimit : Option Nat)
    (ht : 0 ≤ threads) (hne : threads ≠ 1) (hv : isMtDecoderSafe v = false) :
    ∃ d, mkDecompressor threads memlimit v = .ok d ∧ d.mode = .st := by
  unfold mkDecompressor
  rw [if_neg (by omega : ¬ threads < 0)]
  refine ⟨_, rfl, ?_⟩
  rw [hv, Bool.and_false]
  rfl

theorem mt_decoder_fallback_witness :
    (0 : Int) ≤ 4 ∧ (4 : Int) ≠ 1 ∧
    isMtDecoderSafe ⟨5, 6, 0⟩ = false ∧
    (∃ d, mkDecompressor 4 none ⟨5, 6, 0⟩ = .ok d ∧ d.mode = .st) :=
  ⟨by decide, by decide, by decide,
   mt_decoder_fallback 4 ⟨5, 6, 0⟩ none (by decide) (by decide) (by decide)⟩

/-- C3: one-shot `decompress` of a concatenation of valid streams followed
by trailing bytes whose start clashes with the stream magic returns the
concatenation of all the payloads, discarding the trailing bytes. -/
theorem oneshot_concat_discards_junk (x : Bytes) (xs : List Bytes) (junk : Bytes)
    (hlen : ∀ z ∈ x :: xs, z.length < 4294967296)
    (hjunk : startsLikeXz junk = false) :
    decompress (((x :: xs).map compress).flatten ++ junk) none
      = .ok (x :: xs).flatten :=
  oneshot_streams x xs junk hlen hjunk

theorem oneshot_concat_discards_junk_witness :
    (∀ z ∈ [[102, 105, 114, 115, 116], [115, 101, 99, 111, 110, 100],
            [116, 104, 105, 114, 100]], List.length z < 4294967296) ∧
    startsLikeXz [116, 104, 105, 115, 32, 105, 115, 32, 110, 111, 116, 32, 97,
      32, 118, 97, 108, 105, 100, 32, 108, 122, 109, 97, 32, 115, 116, 114,
      101, 97, 109] = false ∧
    decompress
        (compress [102, 105, 114, 115, 116] ++
          (compress [115, 101, 99, 111, 110, 100] ++
            (compress [116, 104, 105, 114, 100] ++
              [116, 104, 105, 115, 32, 105, 115, 32, 110, 111, 116, 32, 97,
               32, 118, 97, 108, 105, 100, 32, 108, 122, 109, 97, 32, 115,
               116, 114, 101, 97, 109]))) none
      = .ok [102, 105, 114, 115, 116, 115, 101, 99, 111, 110, 100, 116, 104,
             105, 114, 100] :=
  ⟨by decide, by decide,
   oneshot_concat_discards_junk [102, 105, 114, 115, 116]
     [[115, 101, 99, 111, 110, 100], [116, 104, 105, 114, 100]]
     [116, 104, 105, 115, 32, 105, 115, 32, 110, 111, 116, 32, 97, 32, 118,
      97, 108, 105, 100, 32, 108, 122, 109, 97, 32, 115, 116, 114, 101, 97,
      109]
     (by decide) (by decide)⟩

/-- C4: every streaming decompressor that reaches Eof — along any trace of
successful `decompress` calls from a fresh construction, with arbitrary
chunking and arbitrary `max_length` bounds — holds in `unused_data`
exactly the bytes fed beyond the first stream's final byte: the total fed
bytes split as one complete stream followed by `unused_data`.  In
particular, feeding one valid stream plus arbitrary trailing bytes in a
single call returns exactly the first stream's payload, sets `eof`, and
stores exactly the trailing bytes in `unused_data`. -/
theorem streaming_unused_data :
    (∀ (d : Decompressor) (fed : Bytes), Reaches d fed → d.eof = true →
        ∃ dict n payload, payload.length = n ∧
          fed = (streamHeader dict n ++ payload) ++ d.unusedData) ∧
    (∀ x trailing : Bytes, x.length < 4294967296 →
        ((freshDec none).decompress (compress x ++ trailing) (-1)).1 = .ok x ∧
        ((freshDec none).decompress (compress x ++ trailing) (-1)).2.eof = true ∧
        ((freshDec none).decompress (compress x ++ trailing) (-1)).2.unusedData
          = trailing) := by
  constructor
  · intro d fed hreach heof
    have hs := reaches_sound d fed hreach
    unfold Sound at hs
    rw [if_pos heof] at hs
    exact hs.2
  · intro x trailing hx
    rw [decompress_fresh_stream x trailing hx]
    exact ⟨rfl, rfl, rfl⟩

theorem streaming_unused_data_witness :
    (∃ dict n payload, List.length payload = n ∧
        (compress [1, 2] ++ [9] : Bytes)
          = (streamHeader dict n ++ payload) ++ [9]) ∧
    (([1, 2] : Bytes).length < 4294967296 ∧
     (((freshDec none).decompress (compress [1, 2] ++ [102, 111, 111]) (-1)).1
         = .ok [1, 2] ∧
      ((freshDec none).decompress (compress [1, 2] ++ [102, 111, 111]) (-1)).2.eof
         = true ∧
      ((freshDec none).decompress (compress [1, 2] ++ [102, 111, 111]) (-1)).2.unusedData
         = [102, 111, 111])) :=
  ⟨streaming_unused_data.1
     { codec := .finished, mode := .st, memlimit := none, inputBuf := [],
       eof := true, needsInput := false, unusedData := [9], poisoned := false }
     (([] ++ [253, 55, 122, 88, 90, 0, 0, 128, 0, 0]) ++ [0, 0, 0, 2, 1, 2, 9])
     (Reaches.step
        { codec := .header [253, 55, 122, 88, 90, 0, 0, 128, 0, 0],
          mode := .st, memlimit := none, inputBuf := [], eof := false,
          needsInput := true, unusedData := [], poisoned := false }
        ([] ++ [253, 55, 122, 88, 90, 0, 0, 128, 0, 0])
        [0, 0, 0, 2, 1, 2, 9] (-1) [1, 2]
        { codec := .finished, mode := .st, memlimit := none, inputBuf := [],
          eof := true, needsInput := false, unusedData := [9],
          poisoned := false }
        (Reaches.step (freshDec none) []
          [253, 55, 122, 88, 90, 0, 0, 128, 0, 0] (-1) []
          { codec := .header [253, 55, 122, 88, 90, 0, 0, 128, 0, 0],
            mode := .st, memlimit := none, inputBuf := [], eof := false,
            needsInput := true, unusedData := [], poisoned := false }
          (Reaches.init (freshDec none) rfl rfl rfl)
          (by decide) (by decide))
        (by decide) (by decide))
     rfl,
   ⟨by decide, streaming_unused_data.2 [1, 2] [102, 111, 111] (by decide)⟩⟩

/-- C5: a streaming decompressor in a terminal state — Eof reached, or
poisoned because an earlier call surfaced a codec error — rejects every
further `decompress` call with a value error, which is not a codec error. -/
theorem terminal_state_value_error :
    (∀ (d : Decompressor) (data : Bytes) (ml : Int),
        d.eof = true ∨ d.poisoned = true →
        (d.decompress data ml).1 = .error .valueError) ∧
    (∀ (d0 : Decompressor) (data0 : Bytes) (ml0 : Int) (s : Status)
        (d1 : Decompressor) (data : Bytes) (ml : Int),
        d0.decompress data0 ml0 = (.error (.lzmaError s), d1) →
        (d1.decompress data ml).1 = .error .valueError) ∧
    DecErr.isCodecError .valueError = false :=
  ⟨fun d data ml h => decompress_of_terminal d data ml h,
   fun d0 data0 ml0 s d1 data ml h =>
     decompress_of_terminal d1 data ml
       (Or.inr (decompress_error_poisons d0 data0 ml0 s d1 h)),
   rfl⟩

theorem terminal_state_value_error_witness :
    ((({ codec := .header [], mode := .st, memlimit := none, inputBuf := [],
         eof := true, needsInput := false, unusedData := [],
         poisoned := false } : Decompressor).decompress [1] (-1)).1
       = .error .valueError) ∧
    ((freshDec none).decompress [9, 9, 9] (-1)
       = (.error (.lzmaError .dataError),
          { codec := .header [], mode := .st, memlimit := none, inputBuf := [],
            eof := false, needsInput := true, unusedData := [],
            poisoned := true })) ∧
    ((({ codec := .header [], mode := .st, memlimit := none, inputBuf := [],
         eof := false, needsInput := true, unusedData := [],
         poisoned := true } : Decompressor).decompress [1] (-1)).1
       = .error .valueError) :=
  ⟨terminal_state_value_error.1 _ [1] (-1) (Or.inl rfl),
   by decide,
   terminal_state_value_error.2.1 (freshDec none) [9, 9, 9] (-1) .dataError _
     [1] (-1) (by decide)⟩

/-- C6: after every successful `decompress` call (any `max_length`,
including 0), `needs_input` is true iff the internal input buffer holds no
unconsumed bytes and `eof` is false. -/
theorem needs_input_invariant (d : Decompressor) (data : Bytes) (ml : Int)
    (r : Bytes) (d' : Decompressor)
    (h : d.decompress data ml = (.ok r, d')) :
    d'.needsInput = (d'.inputBuf.isEmpty && !d'.eof) :=
  decompress_needs_input d data ml r d' h

theorem needs_input_invariant_witness :
    ((freshDec none).decompress (compress [1]) (-1)
       = (.ok [1],
          { codec := .finished, mode := .st, memlimit := none, inputBuf := [],
            eof := true, needsInput := false, unusedData := [],
            poisoned := false })) ∧
    (({ codec := .finished, mode := .st, memlimit := none, inputBuf := [],
        eof := true, needsInput := false, unusedData := [],
        poisoned := false } : Decompressor).needsInput
      = (({ codec := .finished, mode := .st, memlimit := none, inputBuf := [],
            eof := true, needsInput := false, unusedData := [],
            poisoned := false } : Decompressor).inputBuf.isEmpty &&
         !({ codec := .finished, mode := .st, memlimit := none, inputBuf := [],
             eof := true, needsInput := false, unusedData := [],
             poisoned := false } : Decompressor).eof)) :=
  ⟨by decide,
   needs_input_invariant (freshDec none) (compress [1]) (-1) [1]
     { codec := .finished, mode := .st, memlimit := none, inputBuf := [],
       eof := true, needsInput := false, unusedData := [], poisoned := false }
     (by decide)⟩

/-- C7: every successful `decompress(data, max_length=k)` call with `k ≥ 0`
returns at most `k` bytes; and with `k = 0` the codec is not stepped at
all — the call only parks the input into the buffer and returns empty
bytes (the entire state apart from the buffer and `needs_input` is
untouched). -/
theorem max_length_contract :
    (∀ (d : Decompressor) (data : Bytes) (k : Int) (r : Bytes)
       (d' : Decompressor),
        0 ≤ k → d.decompress data k = (.ok r, d') → r.length ≤ k.toNat) ∧
    (∀ (d : Decompressor) (data : Bytes),
        d.eof = false → d.poisoned = false →
        d.decompress data 0 =
          (.ok [], { d with inputBuf := d.inputBuf ++ data,
                            needsInput := (d.inputBuf ++ data).isEmpty })) :=
  ⟨fun d data k r d' hk h => decompress_length_le d data k r d' hk h,
   fun d data he hp => decompress_zero_parks d data he hp⟩

theorem max_length_contract_witness :
    (0 : Int) ≤ 2 ∧
    ((freshDec none).decompress (compress [5, 6, 7]) 2
       = (.ok [5, 6],
          { codec := .body 1, mode := .st, memlimit := none, inputBuf := [7],
            eof := false, needsInput := false, unusedData := [],
            poisoned := false })) ∧
    ([5, 6] : Bytes).length ≤ (2 : Int).toNat ∧
    ((freshDec none).decompress [7, 7] 0
       = (.ok [],
          { codec := .header [], mode := .st, memlimit := none,
            inputBuf := [7, 7], eof := false, needsInput := false,
            unusedData := [], poisoned := false })) :=
  ⟨by decide, by decide,
   max_length_contract.1 (freshDec none) (compress [5, 6, 7]) 2 [5, 6]
     { codec := .body 1, mode := .st, memlimit := none, inputBuf := [7],
       eof := false, needsInput := false, unusedData := [],
       poisoned := false }
     (by decide) (by decide),
   max_length_contract.2 (freshDec none) [7, 7] rfl rfl⟩

/-- C8: a decompressor constructed with `memlimit = 1024`, fed a valid
default-parameter stream (whose dictionary needs 8 MiB), raises the
memory-limit error in both streaming and one-shot mode; that error kind is
a codec error and is distinct from the value error and from the
status-carrying codec errors. -/
theorem memlimit_trips (x : Bytes) :
    ((freshDec (some 1024)).decompress (compress x) (-1)).1 = .error .memError ∧
    decompress (compress x) (some 1024) = .error .memError ∧
    DecErr.isCodecError .memError = true ∧
    DecErr.memError ≠ DecErr.valueError ∧
    (∀ s, DecErr.memError ≠ DecErr.lzmaError s) := by
  refine ⟨?_, decompress_memlimit_oneshot x, rfl, by simp, fun s => by simp⟩
  rw [decompress_fresh_memlimit x]

/-- C9: once `flush()` has been called on a streaming compressor, a second
`flush()` and any further `compress()` raise a value error. -/
theorem flush_terminal (c : Compressor) (data : Bytes) :
    ((c.flush.2).flush).1 = .error .valueError ∧
    ((c.flush.2).compress data).1 = .error .valueError :=
  ⟨flush_of_flushed _ (flush_flushed c),
   compress_of_flushed _ data (flush_flushed c)⟩

/-- C10: one-shot `compress` depends only on the byte content the input
buffer view exposes: any two views (bytes, bytearray, contiguous
memoryview) with equal content compress to the identical byte string. -/
theorem compress_buffer_independent (s1 s2 : ByteSource)
    (h : s1.toBytes = s2.toBytes) :
    compressSrc s1 = compressSrc s2 := by
  unfold compressSrc
  rw [h]

theorem compress_buffer_independent_witness :
    (ByteSource.plainBytes [1, 2]).toBytes
        = (ByteSource.memoryView [0, 1, 2, 3] 1 2).toBytes ∧
    compressSrc (.plainBytes [1, 2]) = compressSrc (.memoryView [0, 1, 2, 3] 1 2) ∧
    compressSrc (.plainBytes [1, 2]) = compressSrc (.byteArray [1, 2]) :=
  ⟨by decide,
   compress_buffer_independent (.plainBytes [1, 2])
     (.memoryView [0, 1, 2, 3] 1 2) (by decide),
   compress_buffer_independent (.plainBytes [1, 2]) (.byteArray [1, 2])
     (by decide)⟩

end LzmaMt
